import Mathlib

/-!
# Verification of `cleanup_console_logs.py`

Shallow embedding of the single-file utility that strips `console.log(...)`
statements from a fixed list of TypeScript files.  File contents are modelled
as `List Char`; the filesystem is modelled as a map from paths to a
`FileAccess` value; the console reports printed by the script are modelled as
`Report` values collected in order.

The Python source consists of `remove_console_logs` (a repeated-pass
balanced-parenthesis removal loop followed by an orphan-line filter),
`process_file` (read / transform / conditional write with a per-file
`try/except`), and `main` (iteration over a hardcoded file list with an
existence check).  The regex assigned to the local variable `pattern` at the
top of `remove_console_logs` is dead code (never used) and is not modelled.
-/

set_option autoImplicit false

/-- Whitespace characters matched in the ASCII range by the regex class
backslash-s of Python, and stripped by the strip method: space, tab,
newline, carriage return, vertical tab, form feed. -/
def isPySpace (c : Char) : Bool :=
  c = ' ' || c = '\t' || c = '\n' || c = '\r' || c = Char.ofNat 11 || c = Char.ofNat 12

/-- Boolean prefix test on character lists (`str.startswith` and the literal
part of the regex match). -/
def leadsWith : List Char → List Char → Bool
  | [], _ => true
  | _ :: _, [] => false
  | a :: as, b :: bs => if a = b then leadsWith as bs else false

/-- Boolean suffix test on character lists (`str.endswith`). -/
def trailsWith (suf l : List Char) : Bool :=
  leadsWith suf.reverse l.reverse

/-- Boolean substring test on character lists (the Python `in` operator
on strings). -/
def containsSub (nd : List Char) : List Char → Bool
  | [] => leadsWith nd []
  | c :: rest => leadsWith nd (c :: rest) || containsSub nd rest

/-- The literal part of the trigger regex `console\.log\s*\(`. -/
def consoleLogPat : List Char := "console.log".toList

/-- Length of the maximal run of regex-whitespace characters at the head of a
list: the `\s*` part of the trigger regex. -/
def wsCount : List Char → Nat
  | [] => 0
  | c :: rest => if isPySpace c then wsCount rest + 1 else 0

/-- One attempted match of the trigger regex `console\.log\s*\(` at position
`p` of `s`.  Returns the index of the opening parenthesis (which is
`match.end() - 1` in the Python code) when the regex matches at `p`: the
literal `console.log` (11 characters), then the maximal run of whitespace,
then `(`. -/
def triggerAt (s : List Char) (p : Nat) : Option Nat :=
  if leadsWith consoleLogPat (s.drop p) then
    match (s.drop p).drop (11 + wsCount ((s.drop p).drop 11)) with
    | '(' :: _ => some (p + 11 + wsCount ((s.drop p).drop 11))
    | _ => none
  else none

/-- All matches found by `re.finditer` with the trigger regex over the
buffer, scanned left to right, each as a pair of the match start and the
index of the opening parenthesis.  As in `finditer`, the scan resumes just
after the end of each match.  `fuel` bounds
the number of scan steps; the caller supplies `s.length + 1`, which is enough
because the position strictly increases at every step. -/
def findMatchesAux (s : List Char) : Nat → Nat → List (Nat × Nat)
  | 0, _ => []
  | fuel + 1, p =>
    if s.length ≤ p then []
    else
      match triggerAt s p with
      | some pn => (p, pn) :: findMatchesAux s fuel (pn + 1)
      | none => findMatchesAux s fuel (p + 1)

/-- The list built from `re.finditer` with the trigger regex, as pairs of
match start and opening-parenthesis index. -/
def findMatches (s : List Char) : List (Nat × Nat) :=
  findMatchesAux s (s.length + 1) 0

/-- The inner scan of `remove_console_logs`: walk the list, incrementing the
count on each opening parenthesis, decrementing on each closing one, and
stopping at the index where the
count returns to zero (checked right after the decrement, as in the source).
`i` is the absolute index of the head of the list; the count is an `Int`
exactly like the Python variable `paren_count`. -/
def findCloseAux : List Char → Nat → Int → Option Nat
  | [], _, _ => none
  | c :: rest, i, cnt =>
    if c = '(' then findCloseAux rest (i + 1) (cnt + 1)
    else if c = ')' then
      if cnt - 1 = 0 then some i else findCloseAux rest (i + 1) (cnt - 1)
    else findCloseAux rest (i + 1) cnt

/-- Scan of the buffer starting at the opening parenthesis (index `start`,
which is `match.end() - 1`), with `paren_count = 0` initially. -/
def findClose (s : List Char) (start : Nat) : Option Nat :=
  findCloseAux (s.drop start) start 0

/-- The whitespace characters skipped after the closing parenthesis: the
source checks membership in the literal list of space, tab and newline. -/
def isTrailSpace (c : Char) : Bool :=
  c = ' ' || c = '\t' || c = '\n'

/-- Advance `e` over trailing whitespace, as in the source loop that
increments `end` while the character there is a space, tab or newline. -/
def skipWsAux : List Char → Nat → Nat
  | [], e => e
  | c :: rest, e => if isTrailSpace c then skipWsAux rest (e + 1) else e

/-- Value of `end` after the whitespace loop, starting from `e`. -/
def skipWs (s : List Char) (e : Nat) : Nat :=
  skipWsAux (s.drop e) e

/-- The final value of `end` for a match whose closing parenthesis is at
index `c`: skip trailing whitespace from `c + 1`, then consume one
semicolon if present. -/
def spliceEnd (res : List Char) (c : Nat) : Nat :=
  if res[skipWs res (c + 1)]? = some ';' then skipWs res (c + 1) + 1
  else skipWs res (c + 1)

/-- Processing of one stored match `(start, paren index)` against the current
buffer: find the matching close parenthesis; if found, splice out
`result[:start] + result[end:]`; if the scan reaches the end of the buffer
without the count returning to zero, the buffer is left unchanged (the Python
inner `while` simply runs off the end). -/
def processMatch (res : List Char) (m : Nat × Nat) : List Char :=
  match findClose res m.2 with
  | none => res
  | some c => res.take m.1 ++ res.drop (spliceEnd res c)

/-- One pass of the `while` body: list all matches of the trigger in the
current buffer, then process them from last to first (`reversed(matches)`),
threading the progressively spliced buffer. -/
def removalPass (res : List Char) : List Char :=
  ((findMatches res).reverse).foldl processMatch res

/-- The fixpoint loop: `previous_length = 0; while len(result) !=
previous_length: previous_length = len(result); <pass>`.  `fuel` bounds the
number of iterations; the caller supplies `s.length + 1`, which is enough
because the length strictly decreases on every continuing iteration. -/
def removalLoop : Nat → Nat → List Char → List Char
  | 0, _, res => res
  | fuel + 1, prev, res =>
    if res.length = prev then res
    else removalLoop fuel res.length (removalPass res)

/-- The buffer at exit of the fixpoint loop of `remove_console_logs`. -/
def loopRun (s : List Char) : List Char :=
  removalLoop (s.length + 1) 0 s

/-- Embeds the split of the buffer on the newline character, with Python
semantics: splitting the empty string yields one empty field, and every
separator produces a field boundary. -/
def splitNl : List Char → List (List Char)
  | [] => [[]]
  | c :: rest =>
    if c = '\n' then [] :: splitNl rest
    else
      match splitNl rest with
      | l :: ls => (c :: l) :: ls
      | [] => [[c]]

/-- Embeds the join of the kept lines with a newline separator. -/
def joinNl : List (List Char) → List Char
  | [] => []
  | [l] => l
  | l :: ls => l ++ '\n' :: joinNl ls

/-- Embeds the strip method: drop whitespace from both ends. -/
def pyStrip (l : List Char) : List Char :=
  ((l.dropWhile isPySpace).reverse.dropWhile isPySpace).reverse

/-- The substring `function` tested by the line filter. -/
def functionPat : List Char := "function".toList

/-- The condition under which the orphan-line filter skips a line,
translated with the operator precedence of Python: the first `if` is
(A and B and (not A)) or F, where A tests that the stripped line starts
with an open brace, B that it ends with close brace then comma, and F that
it contains the substring `function`; the second `if` is the bracket shape
without `const`, `let` or `var`. -/
def dropLine (line : List Char) : Bool :=
  let stripped := pyStrip line
  ((leadsWith ['\x7b'] stripped && trailsWith ['\x7d', ','] stripped
      && !(leadsWith ['\x7b'] stripped))
    || containsSub functionPat stripped)
  || (leadsWith ['['] stripped && trailsWith [']', ','] stripped
      && !(containsSub "const".toList stripped)
      && !(containsSub "let".toList stripped)
      && !(containsSub "var".toList stripped))

/-- A line is appended to `cleaned_lines` exactly when neither filter `if`
fires. -/
def keepLine (l : List Char) : Bool :=
  !(dropLine l)

/-- Embeds `remove_console_logs`: the fixpoint removal loop followed by
the orphan-line filter, reassembling the kept lines with a newline join. -/
def remove_console_logs (content : List Char) : List Char :=
  joinNl ((splitNl (loopRun content)).filter keepLine)

/-- Outcome of one attempt to open and read a configured file: the path is
missing, or reading (or writing back) raises an exception, or reading
succeeds with the given content. -/
inductive FileAccess where
  | missing
  | readFailure
  | ok (content : List Char)
  deriving DecidableEq

/-- One line printed by the script. -/
inductive Report where
  | cleaned (path : String)
  | noLogs (path : String)
  | errorProcessing (path : String)
  | notFound (path : String)
  | summary (n : Nat)
  deriving DecidableEq

/-- Observable outcome of `process_file`: the report printed for the file,
the content written back (`none` when the file is not rewritten), and the
boolean return value. -/
structure FileOutcome where
  report : Report
  written : Option (List Char)
  changed : Bool
  deriving DecidableEq

/-- Embeds `process_file`: on a successful read, clean the content and write back
only when it changed; any exception raised inside the `try` block is caught
and reported as `Error processing`, returning `False`. -/
def process_file (path : String) (acc : FileAccess) : FileOutcome :=
  match acc with
  | FileAccess.ok content =>
    let cleaned := remove_console_logs content
    if cleaned ≠ content then
      { report := Report.cleaned path, written := some cleaned, changed := true }
    else
      { report := Report.noLogs path, written := none, changed := false }
  | _ =>
    { report := Report.errorProcessing path, written := none, changed := false }

/-- The hardcoded list `files_to_clean`. -/
def files_to_clean : List String :=
  [ "src/components/analysis/DataAnalysis.tsx",
    "src/components/analysis/MultiFileAnalysis.tsx",
    "src/components/preview/DataPreview.tsx",
    "src/lib/dataPreviewUtils.ts",
    "src/lib/dataAnalysisUtils.ts",
    "src/components/preview/ExcelPreview.tsx",
    "src/components/layout/MainLayout.tsx" ]

/-- The per-file step of `main`: if `os.path.exists` fails the file is
reported as not found and skipped, otherwise `process_file` runs. -/
def mainStep (fs : String → FileAccess) (p : String) : FileOutcome :=
  match fs p with
  | FileAccess.missing =>
    { report := Report.notFound p, written := none, changed := false }
  | acc => process_file p acc

/-- The Python `main` function (named `mainRun` here because `main` is
reserved): one report per configured file, in order, followed by the summary
line with the count of files whose processing returned `True`. -/
def mainRun (fs : String → FileAccess) : List Report :=
  (files_to_clean.map (fun p => (mainStep fs p).report))
    ++ [Report.summary ((files_to_clean.map (fun p => (mainStep fs p).changed)).count true)]

/-! ## Lemmas about the balanced-parenthesis scan -/

theorem findCloseAux_ge : ∀ (l : List Char) (i : Nat) (cnt : Int) (j : Nat),
    findCloseAux l i cnt = some j → i ≤ j := by
  intro l
  induction l with
  | nil => intro i cnt j h; simp [findCloseAux] at h
  | cons c rest ih =>
    intro i cnt j h
    simp only [findCloseAux] at h
    split at h
    · exact Nat.le_of_succ_le (ih (i + 1) _ j h)
    · split at h
      · split at h
        · injection h with h'; omega
        · exact Nat.le_of_succ_le (ih (i + 1) _ j h)
      · exact Nat.le_of_succ_le (ih (i + 1) _ j h)

theorem findClose_ge {s : List Char} {st j : Nat} (h : findClose s st = some j) :
    st ≤ j :=
  findCloseAux_ge (s.drop st) st 0 j h

theorem skipWsAux_ge : ∀ (l : List Char) (e : Nat), e ≤ skipWsAux l e := by
  intro l
  induction l with
  | nil => intro e; exact Nat.le_refl e
  | cons c rest ih =>
    intro e
    simp only [skipWsAux]
    split
    · exact Nat.le_trans (Nat.le_succ e) (ih (e + 1))
    · exact Nat.le_refl e

theorem skipWs_ge (s : List Char) (e : Nat) : e ≤ skipWs s e :=
  skipWsAux_ge (s.drop e) e

theorem spliceEnd_gt (res : List Char) (c : Nat) : c < spliceEnd res c := by
  unfold spliceEnd
  have h := skipWs_ge res (c + 1)
  split <;> omega

theorem triggerAt_bounds {s : List Char} {p pn : Nat} (h : triggerAt s p = some pn) :
    p ≤ pn ∧ pn < s.length := by
  unfold triggerAt at h
  split at h
  · split at h
    next heq =>
      injection h with h'
      subst h'
      refine ⟨by omega, ?_⟩
      have hlen := congrArg List.length heq
      simp only [List.length_drop, List.length_cons] at hlen
      omega
    next => exact absurd h (by simp)
  · exact absurd h (by simp)

theorem findMatchesAux_mem {s : List Char} : ∀ (fuel p : Nat) (m : Nat × Nat),
    m ∈ findMatchesAux s fuel p → m.1 ≤ m.2 ∧ m.2 < s.length := by
  intro fuel
  induction fuel with
  | zero => intro p m h; simp [findMatchesAux] at h
  | succ n ih =>
    intro p m h
    simp only [findMatchesAux] at h
    split at h
    · simp at h
    · split at h
      next pn htrig =>
        rcases List.mem_cons.mp h with h1 | h2
        · subst h1; exact triggerAt_bounds htrig
        · exact ih _ _ h2
      next => exact ih _ _ h

theorem findMatches_mem {s : List Char} {m : Nat × Nat} (h : m ∈ findMatches s) :
    m.1 ≤ m.2 ∧ m.2 < s.length :=
  findMatchesAux_mem _ _ _ h

/-! ## Lemmas about one splice step -/

theorem processMatch_of_none {res : List Char} {m : Nat × Nat}
    (h : findClose res m.2 = none) : processMatch res m = res := by
  unfold processMatch
  rw [h]

theorem processMatch_length_lt {res : List Char} {m : Nat × Nat} {c : Nat}
    (hc : findClose res m.2 = some c) (h1 : m.1 ≤ m.2) (h2 : m.1 < res.length) :
    (processMatch res m).length < res.length := by
  unfold processMatch
  rw [hc]
  have hce : m.2 ≤ c := findClose_ge hc
  have hsp : c < spliceEnd res c := spliceEnd_gt res c
  simp only [List.length_append, List.length_take, List.length_drop]
  omega

theorem processMatch_length {res : List Char} {m : Nat × Nat} (h1 : m.1 ≤ m.2) :
    (processMatch res m).length ≤ res.length ∧
      ((processMatch res m).length = res.length → processMatch res m = res) := by
  cases hc : findClose res m.2 with
  | none => rw [processMatch_of_none hc]; exact ⟨Nat.le_refl _, fun _ => rfl⟩
  | some c =>
    by_cases h2 : m.1 < res.length
    · have hlt := processMatch_length_lt hc h1 h2
      exact ⟨Nat.le_of_lt hlt, fun he => absurd he (by omega)⟩
    · have hce : m.2 ≤ c := findClose_ge hc
      have hsp : c < spliceEnd res c := spliceEnd_gt res c
      have htake : res.take m.1 = res := List.take_of_length_le (by omega)
      have hdrop : res.drop (spliceEnd res c) = [] := List.drop_eq_nil_of_le (by omega)
      have hid : processMatch res m = res := by
        unfold processMatch
        rw [hc]
        show res.take m.1 ++ res.drop (spliceEnd res c) = res
        rw [htake, hdrop, List.append_nil]
      rw [hid]
      exact ⟨Nat.le_refl _, fun _ => rfl⟩

/-! ## Lemmas about one removal pass -/

theorem foldPM_length : ∀ (ms : List (Nat × Nat)) (res : List Char),
    (∀ m ∈ ms, m.1 ≤ m.2) →
    ((ms.foldl processMatch res).length ≤ res.length ∧
      ((ms.foldl processMatch res).length = res.length →
        ms.foldl processMatch res = res)) := by
  intro ms
  induction ms with
  | nil => intro res _; exact ⟨Nat.le_refl _, fun _ => rfl⟩
  | cons m ms ih =>
    intro res hms
    have hm : m.1 ≤ m.2 := hms m (List.mem_cons_self m ms)
    have hstep := @processMatch_length res m hm
    have htail := ih (processMatch res m) (fun x hx => hms x (List.mem_cons_of_mem m hx))
    rw [List.foldl_cons]
    refine ⟨Nat.le_trans htail.1 hstep.1, ?_⟩
    intro he
    have h1 : (processMatch res m).length = res.length := by
      have := htail.1
      omega
    have h2 : processMatch res m = res := hstep.2 h1
    rw [h2] at he htail ⊢
    exact htail.2 he

theorem foldPM_fix : ∀ (ms : List (Nat × Nat)) (res : List Char),
    (∀ m ∈ ms, m.1 ≤ m.2) → ms.foldl processMatch res = res →
    ∀ m ∈ ms, processMatch res m = res := by
  intro ms
  induction ms with
  | nil => intro res _ _ m hm; simp at hm
  | cons m0 ms ih =>
    intro res hms hfix m hm
    have hm0 : m0.1 ≤ m0.2 := hms m0 (List.mem_cons_self m0 ms)
    rw [List.foldl_cons] at hfix
    have hstep := @processMatch_length res m0 hm0
    have htail := foldPM_length ms (processMatch res m0)
      (fun x hx => hms x (List.mem_cons_of_mem _ hx))
    have hlen : (processMatch res m0).length = res.length := by
      have h1 := htail.1
      have h3 : (ms.foldl processMatch (processMatch res m0)).length = res.length := by
        rw [hfix]
      have h2 := hstep.1
      omega
    have hid : processMatch res m0 = res := hstep.2 hlen
    rcases List.mem_cons.mp hm with rfl | hm'
    · exact hid
    · refine ih res (fun x hx => hms x (List.mem_cons_of_mem _ hx)) ?_ m hm'
      rw [hid] at hfix
      exact hfix

theorem removalPass_length (res : List Char) : (removalPass res).length ≤ res.length :=
  (foldPM_length _ res (fun m hm => (findMatches_mem (List.mem_reverse.mp hm)).1)).1

theorem removalPass_eq_of_length {res : List Char}
    (h : (removalPass res).length = res.length) : removalPass res = res :=
  (foldPM_length _ res (fun m hm => (findMatches_mem (List.mem_reverse.mp hm)).1)).2 h

theorem removalPass_unbalanced {res : List Char} (h : removalPass res = res) :
    ∀ m ∈ findMatches res, findClose res m.2 = none := by
  intro m hm
  have hb := findMatches_mem hm
  have hid : processMatch res m = res :=
    foldPM_fix _ res (fun x hx => (findMatches_mem (List.mem_reverse.mp hx)).1) h m
      (List.mem_reverse.mpr hm)
  cases hc : findClose res m.2 with
  | none => rfl
  | some c =>
    have hlt := processMatch_length_lt hc hb.1 (Nat.lt_of_le_of_lt hb.1 hb.2)
    rw [hid] at hlt
    omega

/-! ## Lemmas about the fixpoint loop -/

theorem removalLoop_length : ∀ (fuel prev : Nat) (res : List Char),
    (removalLoop fuel prev res).length ≤ res.length := by
  intro fuel
  induction fuel with
  | zero => intro prev res; exact Nat.le_refl _
  | succ n ih =>
    intro prev res
    simp only [removalLoop]
    split
    · exact Nat.le_refl _
    · exact Nat.le_trans (ih _ _) (removalPass_length res)

theorem removalLoop_fix : ∀ (fuel prev : Nat) (res : List Char),
    res.length < fuel → prev ≠ res.length →
    removalPass (removalLoop fuel prev res) = removalLoop fuel prev res := by
  intro fuel
  induction fuel with
  | zero => intro prev res h hp; omega
  | succ n ih =>
    intro prev res hfuel hprev
    simp only [removalLoop]
    split
    next heq => exact absurd heq.symm hprev
    next =>
      by_cases hl : (removalPass res).length = res.length
      · have hid : removalPass res = res := removalPass_eq_of_length hl
        rw [hid]
        cases n with
        | zero => simpa [removalLoop] using hid
        | succ k =>
          simp only [removalLoop, if_pos rfl]
          exact hid
      · have hlt : (removalPass res).length < res.length :=
          Nat.lt_of_le_of_ne (removalPass_length res) hl
        exact ih res.length (removalPass res) (by omega) (by omega)

theorem loopRun_fix (s : List Char) : removalPass (loopRun s) = loopRun s := by
  unfold loopRun
  cases s with
  | nil => rfl
  | cons c rest =>
    apply removalLoop_fix
    · exact Nat.lt_succ_self _
    · simp

theorem loopRun_length (s : List Char) : (loopRun s).length ≤ s.length :=
  removalLoop_length _ _ _

theorem removalPass_of_no_matches {s : List Char} (h : findMatches s = []) :
    removalPass s = s := by
  unfold removalPass
  rw [h]
  rfl

theorem removalLoop_of_no_matches {s : List Char} (h : findMatches s = []) :
    ∀ (fuel prev : Nat), removalLoop fuel prev s = s := by
  intro fuel
  induction fuel with
  | zero => intro prev; rfl
  | succ n ih =>
    intro prev
    simp only [removalLoop]
    split
    · rfl
    · rw [removalPass_of_no_matches h]
      exact ih _

theorem loopRun_of_no_matches {s : List Char} (h : findMatches s = []) :
    loopRun s = s :=
  removalLoop_of_no_matches h _ _

/-! ## Lemmas about splitting and joining on newlines -/

theorem splitNl_ne_nil : ∀ (l : List Char), splitNl l ≠ [] := by
  intro l
  cases l with
  | nil => simp [splitNl]
  | cons c rest =>
    simp only [splitNl]
    split
    · simp
    · rcases h : splitNl rest with _ | ⟨a, as⟩ <;> simp

theorem joinNl_cons_ne {ls : List (List Char)} (l : List Char) (h : ls ≠ []) :
    joinNl (l :: ls) = l ++ '\n' :: joinNl ls := by
  cases ls with
  | nil => exact absurd rfl h
  | cons a as => rfl

theorem joinNl_splitNl : ∀ (l : List Char), joinNl (splitNl l) = l := by
  intro l
  induction l with
  | nil => rfl
  | cons c rest ih =>
    simp only [splitNl]
    split
    next hc =>
      rw [joinNl_cons_ne [] (splitNl_ne_nil rest), ih, hc]
      rfl
    next hc =>
      rcases hsp : splitNl rest with _ | ⟨a, as⟩
      · exact absurd hsp (splitNl_ne_nil rest)
      · rw [hsp] at ih
        show joinNl ((c :: a) :: as) = c :: rest
        cases as with
        | nil =>
          simp only [joinNl] at ih ⊢
          rw [ih]
        | cons b bs =>
          rw [joinNl_cons_ne a (by simp)] at ih
          rw [joinNl_cons_ne (c :: a) (by simp), ← ih]
          simp

theorem splitNl_no_nl : ∀ (l x : List Char), x ∈ splitNl l → '\n' ∉ x := by
  intro l
  induction l with
  | nil =>
    intro x hx
    simp only [splitNl, List.mem_singleton] at hx
    subst hx
    simp
  | cons c rest ih =>
    intro x hx
    simp only [splitNl] at hx
    split at hx
    · rcases List.mem_cons.mp hx with rfl | h2
      · simp
      · exact ih x h2
    next hc =>
      rcases hsp : splitNl rest with _ | ⟨a, as⟩
      · exact absurd hsp (splitNl_ne_nil rest)
      · rw [hsp] at hx
        rcases List.mem_cons.mp hx with rfl | h2
        · intro hmem
          rcases List.mem_cons.mp hmem with h3 | h4
          · exact hc h3.symm
          · exact ih a (by rw [hsp]; exact List.mem_cons_self a as) h4
        · exact ih x (by rw [hsp]; exact List.mem_cons_of_mem a h2)

theorem splitNl_eq_single {l : List Char} (h : '\n' ∉ l) : splitNl l = [l] := by
  induction l with
  | nil => rfl
  | cons c rest ih =>
    simp only [splitNl]
    rw [if_neg (fun hc => h (by rw [hc]; exact List.mem_cons_self _ _))]
    rw [ih (fun hm => h (List.mem_cons_of_mem c hm))]

theorem splitNl_append {l : List Char} (x : List Char) (h : '\n' ∉ l) :
    splitNl (l ++ '\n' :: x) = l :: splitNl x := by
  induction l with
  | nil => simp [splitNl]
  | cons c rest ih =>
    have hc : ¬(c = '\n') := fun hc => h (by rw [hc]; exact List.mem_cons_self _ _)
    have hrest := ih (fun hm => h (List.mem_cons_of_mem c hm))
    show splitNl (c :: (rest ++ '\n' :: x)) = (c :: rest) :: splitNl x
    simp only [splitNl]
    rw [if_neg hc, hrest]

theorem splitNl_joinNl : ∀ (ls : List (List Char)), ls ≠ [] →
    (∀ x ∈ ls, '\n' ∉ x) → splitNl (joinNl ls) = ls := by
  intro ls
  induction ls with
  | nil => intro h; exact absurd rfl h
  | cons a as ih =>
    intro _ hnl
    cases as with
    | nil =>
      simp only [joinNl]
      exact splitNl_eq_single (hnl a (List.mem_cons_self _ _))
    | cons b bs =>
      rw [joinNl_cons_ne a (by simp)]
      rw [splitNl_append _ (hnl a (List.mem_cons_self _ _))]
      rw [ih (by simp) (fun x hx => hnl x (List.mem_cons_of_mem a hx))]

theorem joinNl_head_le (l : List Char) (ls : List (List Char)) :
    l.length ≤ (joinNl (l :: ls)).length := by
  cases ls with
  | nil => simp [joinNl]
  | cons b bs =>
    rw [joinNl_cons_ne l (by simp)]
    simp [List.length_append]

theorem joinNl_length_cons (l : List Char) (ls : List (List Char)) :
    (joinNl ls).length ≤ (joinNl (l :: ls)).length := by
  cases ls with
  | nil => simp [joinNl]
  | cons b bs =>
    rw [joinNl_cons_ne l (by simp)]
    simp [List.length_append]
    omega

theorem joinNl_filter_length (q : List Char → Bool) :
    ∀ (ls : List (List Char)), (joinNl (ls.filter q)).length ≤ (joinNl ls).length := by
  intro ls
  induction ls with
  | nil => simp
  | cons l ls ih =>
    by_cases hq : q l
    · rw [List.filter_cons_of_pos hq]
      rcases hf : ls.filter q with _ | ⟨c, cs⟩
      · rw [hf] at ih
        exact Nat.le_trans (Nat.le_of_eq rfl) (joinNl_head_le l ls)
      · have hls : ls ≠ [] := by
          intro h
          rw [h] at hf
          simp at hf
        rw [hf] at ih
        rw [joinNl_cons_ne l (by simp), joinNl_cons_ne l hls]
        simp only [List.length_append, List.length_cons]
        omega
    · rw [List.filter_cons_of_neg hq]
      exact Nat.le_trans ih (joinNl_length_cons l ls)

/-! ## Lemmas about the substring test -/

theorem leadsWith_iff : ∀ (nd l : List Char), leadsWith nd l = true ↔ ∃ t, l = nd ++ t := by
  intro nd
  induction nd with
  | nil =>
    intro l
    simp [leadsWith]
  | cons a as ih =>
    intro l
    cases l with
    | nil =>
      simp [leadsWith]
    | cons b bs =>
      simp only [leadsWith]
      constructor
      · intro h
        split at h
        next hab =>
          obtain ⟨t, ht⟩ := (ih bs).mp h
          exact ⟨t, by rw [ht, hab]; rfl⟩
        next => exact absurd h (by simp)
      · rintro ⟨t, ht⟩
        rw [List.cons_append] at ht
        injection ht with h1 h2
        rw [if_pos h1.symm]
        exact (ih bs).mpr ⟨t, h2⟩

theorem containsSub_iff : ∀ (l nd : List Char),
    containsSub nd l = true ↔ ∃ a b, l = a ++ nd ++ b := by
  intro l
  induction l with
  | nil =>
    intro nd
    simp only [containsSub]
    rw [leadsWith_iff]
    constructor
    · rintro ⟨t, ht⟩
      exact ⟨[], t, by simpa using ht⟩
    · rintro ⟨a, b, hab⟩
      have h0 : a = [] ∧ nd ++ b = [] := by
        constructor
        · cases a with
          | nil => rfl
          | cons x xs => simp at hab
        · cases a with
          | nil => simpa using hab.symm
          | cons x xs => simp at hab
      exact ⟨b, by rw [h0.2]⟩
  | cons c rest ih =>
    intro nd
    simp only [containsSub, Bool.or_eq_true]
    rw [leadsWith_iff, ih]
    constructor
    · rintro (⟨t, ht⟩ | ⟨a, b, hab⟩)
      · exact ⟨[], t, by simpa using ht⟩
      · exact ⟨c :: a, b, by simp [hab]⟩
    · rintro ⟨a, b, hab⟩
      cases a with
      | nil => exact Or.inl ⟨b, by simpa using hab⟩
      | cons a0 as =>
        right
        have h2 : rest = as ++ nd ++ b := by
          rw [List.cons_append, List.cons_append] at hab
          injection hab with h1 h2
        exact ⟨as, b, h2⟩

theorem containsSub_reverse_true {nd l : List Char} (h : containsSub nd l = true) :
    containsSub nd.reverse l.reverse = true := by
  obtain ⟨a, b, rfl⟩ := (containsSub_iff l nd).mp h
  apply (containsSub_iff _ _).mpr
  exact ⟨b.reverse, a.reverse, by simp⟩

theorem containsSub_dropWhile {nd : List Char} (hne : nd ≠ [])
    (hns : ∀ c ∈ nd, isPySpace c = false) :
    ∀ (l : List Char), containsSub nd l = true →
      containsSub nd (l.dropWhile isPySpace) = true := by
  intro l
  induction l with
  | nil => intro h; simpa using h
  | cons c rest ih =>
    intro h
    by_cases hc : isPySpace c
    · rw [List.dropWhile_cons_of_pos hc]
      apply ih
      simp only [containsSub, Bool.or_eq_true] at h
      rcases h with h1 | h2
      · cases nd with
        | nil => exact absurd rfl hne
        | cons d nd' =>
          simp only [leadsWith] at h1
          split at h1
          next hdc =>
            have hd := hns d (List.mem_cons_self _ _)
            rw [hdc] at hd
            rw [hd] at hc
            exact absurd hc (by simp)
          next => exact absurd h1 (by simp)
      · exact h2
    · rwa [List.dropWhile_cons_of_neg hc]

theorem containsSub_pyStrip {nd : List Char} (hne : nd ≠ [])
    (hns : ∀ c ∈ nd, isPySpace c = false) (l : List Char)
    (h : containsSub nd l = true) : containsSub nd (pyStrip l) = true := by
  unfold pyStrip
  have h1 := containsSub_dropWhile hne hns l h
  have h2 : containsSub nd.reverse (l.dropWhile isPySpace).reverse = true :=
    containsSub_reverse_true h1
  have h3 : containsSub nd.reverse
      ((l.dropWhile isPySpace).reverse.dropWhile isPySpace) = true := by
    refine containsSub_dropWhile (by simpa using hne) ?_ _ h2
    intro c hc
    exact hns c (List.mem_reverse.mp hc)
  have h4 := containsSub_reverse_true h3
  simpa using h4

theorem keepLine_no_function {l : List Char} (h : keepLine l = true) :
    containsSub functionPat l = false := by
  by_contra hcf
  have hc : containsSub functionPat l = true := by
    cases hx : containsSub functionPat l
    · exact absurd hx hcf
    · rfl
  have hstrip : containsSub functionPat (pyStrip l) = true :=
    containsSub_pyStrip (by decide) (by decide) l hc
  have hdrop : dropLine l = false := by
    cases hx : dropLine l
    · rfl
    · rw [keepLine, hx] at h
      exact absurd h (by simp)
  rw [dropLine] at hdrop
  simp only [Bool.or_eq_false_iff] at hdrop
  rw [hdrop.1.2] at hstrip
  exact absurd hstrip (by simp)

/-! ## Claim theorems -/

/-- C1 (counterexample): the claim "content with no occurrence of the trigger
is returned byte-for-byte unchanged and the file is not rewritten" is false:
the input `[1],` contains no trigger occurrence, yet the orphan-line filter
drops the line, so `remove_console_logs` changes the content and
`process_file` rewrites the file. -/
theorem C1_counterexample :
    findMatches "[1],".toList = [] ∧
      remove_console_logs "[1],".toList ≠ "[1],".toList ∧
      (process_file "a.ts" (FileAccess.ok "[1],".toList)).written ≠ none := by
  decide

/-- C1 (amended): content containing no occurrence of the trigger pattern
and no line dropped by the orphan-line filter is returned byte-for-byte
unchanged by `remove_console_logs`, and `process_file` then reports the file
as having no `console.log` statements and does not write it back. -/
theorem C1_no_trigger_no_filtered_line_unchanged (s : List Char) (path : String)
    (hm : findMatches s = [])
    (hk : ((splitNl s).all keepLine) = true) :
    remove_console_logs s = s ∧
      (process_file path (FileAccess.ok s)).report = Report.noLogs path ∧
      (process_file path (FileAccess.ok s)).written = none := by
  have hr : remove_console_logs s = s := by
    unfold remove_console_logs
    rw [loopRun_of_no_matches hm]
    rw [List.filter_eq_self.mpr (fun a ha => (List.all_eq_true.mp hk) a ha)]
    exact joinNl_splitNl s
  refine ⟨hr, ?_, ?_⟩ <;> simp [process_file, hr]

/-- C1 (witness): the amended theorem applied to the trigger-free,
filter-free two-line input `hello`, `world`. -/
theorem C1_witness :
    remove_console_logs "hello\nworld".toList = "hello\nworld".toList ∧
      (process_file "a.ts" (FileAccess.ok "hello\nworld".toList)).report =
        Report.noLogs "a.ts" := by
  have h := C1_no_trigger_no_filtered_line_unchanged "hello\nworld".toList "a.ts"
    (by decide) (by decide)
  exact ⟨h.1, h.2.1⟩

/-- C2 (code evaluation): the claim says a line whose trimmed content starts
with an open brace, ends with close brace and comma and does not contain
`function` is dropped, and lines matching neither heuristic shape are kept.
The code does the opposite on both counts: the brace conjunction
`A and B and not A` is unsatisfiable so `\x7b a: 1 \x7d,` is kept, while the
residual disjunct drops every line containing `function`, so `function f()`
is dropped even though it matches neither shape. -/
theorem C2_filter_behavior_eval :
    remove_console_logs "\x7b a: 1 \x7d,".toList = "\x7b a: 1 \x7d,".toList ∧
      remove_console_logs "function f()".toList = [] := by
  decide

/-- C3 (counterexample): `remove_console_logs` is not idempotent.  On
`console.log(<nl>function((<nl>)` the first application removes nothing in
the paren pass (the trigger is unbalanced) but the line filter drops the
`function((` line, after which the trigger has become balanced, so a second
application removes it. -/
theorem C3_counterexample :
    remove_console_logs (remove_console_logs "console.log(\nfunction((\n)".toList) ≠
      remove_console_logs "console.log(\nfunction((\n)".toList := by
  decide

/-- C3 (amended): `remove_console_logs` is idempotent on every input whose
cleaned result contains no remaining trigger occurrence; in general a second
pass can differ, because the line filter can delete a line that made a
trigger occurrence unbalanced. -/
theorem C3_idempotent_on_trigger_free_results (s : List Char)
    (h : findMatches (remove_console_logs s) = []) :
    remove_console_logs (remove_console_logs s) = remove_console_logs s := by
  rcases hk : (splitNl (loopRun s)).filter keepLine with _ | ⟨a, as⟩
  · have hs : remove_console_logs s = [] := by
      unfold remove_console_logs
      rw [hk]
      rfl
    rw [hs]
    decide
  · have hs : remove_console_logs s = joinNl (a :: as) := by
      unfold remove_console_logs
      rw [hk]
    have hnl : ∀ x ∈ a :: as, '\n' ∉ x := by
      intro x hx
      have hx2 : x ∈ (splitNl (loopRun s)).filter keepLine := by rw [hk]; exact hx
      exact splitNl_no_nl _ x (List.mem_of_mem_filter hx2)
    have hsplit : splitNl (remove_console_logs s) = a :: as := by
      rw [hs]
      exact splitNl_joinNl _ (by simp) hnl
    have hfilter : (a :: as).filter keepLine = a :: as := by
      apply List.filter_eq_self.mpr
      intro x hx
      have hx2 : x ∈ (splitNl (loopRun s)).filter keepLine := by rw [hk]; exact hx
      exact List.of_mem_filter hx2
    calc remove_console_logs (remove_console_logs s)
        = joinNl ((splitNl (loopRun (remove_console_logs s))).filter keepLine) := rfl
      _ = joinNl ((splitNl (remove_console_logs s)).filter keepLine) := by
          rw [loopRun_of_no_matches h]
      _ = joinNl (a :: as) := by rw [hsplit, hfilter]
      _ = remove_console_logs s := hs.symm

/-- C3 (witness): the amended theorem applied to `console.log(x);`, whose
cleaned result is empty and hence trigger-free. -/
theorem C3_witness :
    remove_console_logs (remove_console_logs "console.log(x);".toList) =
      remove_console_logs "console.log(x);".toList :=
  C3_idempotent_on_trigger_free_results "console.log(x);".toList (by decide)

/-- C4 (code evaluation at the failing input): on `console.log(` — a trigger
occurrence whose opening parenthesis has no depth-matching close — the code
terminates (the loop is already at its fixpoint on this input) and leaves the
occurrence unaltered, but contrary to the claim it reports no error or
failure: `process_file` reports the file as having no `console.log`
statements and does not rewrite it. -/
theorem C4_unbalanced_trigger_eval :
    loopRun "console.log(".toList = "console.log(".toList ∧
      remove_console_logs "console.log(".toList = "console.log(".toList ∧
      process_file "a.ts" (FileAccess.ok "console.log(".toList) =
        { report := Report.noLogs "a.ts", written := none, changed := false } := by
  decide

/-- C5 (counterexample): on `consoconsole.log(x)le.log(` every trigger
occurrence of the input is well-balanced (its depth scan finds a close), yet
the buffer at exit of the repeated-pass loop still contains a trigger
occurrence, because the splice glues `conso` and `le.log(` into a new
(unbalanced) occurrence of the trigger. -/
theorem C5_counterexample :
    ((findMatches "consoconsole.log(x)le.log(".toList).all
        (fun m => (findClose "consoconsole.log(x)le.log(".toList m.2).isSome)) = true ∧
      findMatches (loopRun "consoconsole.log(x)le.log(".toList) ≠ [] := by
  decide

/-- C5 (amended): for every finite input the repeated-pass removal loop
terminates — the buffer `loopRun s` it returns is a genuine fixpoint, one
more pass leaves it unchanged, which is the exit condition of the loop — and at
loop exit every remaining trigger occurrence is unbalanced (its depth scan
finds no matching close), so no removable occurrence remains; trigger
occurrences themselves may remain. -/
theorem C5_loop_terminates_unbalanced_remain (s : List Char) :
    removalPass (loopRun s) = loopRun s ∧
      ((findMatches (loopRun s)).all
        (fun m => (findClose (loopRun s) m.2).isNone)) = true := by
  refine ⟨loopRun_fix s, ?_⟩
  rw [List.all_eq_true]
  intro m hm
  rw [removalPass_unbalanced (loopRun_fix s) m hm]
  rfl

/-- C6: on the single statement `console.log(bar(1,2), baz(3));` the balanced
span with nested parentheses and the trailing semicolon are removed entirely:
`remove_console_logs` returns the empty string. -/
theorem C6_nested_call_removed_entirely :
    remove_console_logs "console.log(bar(1,2), baz(3));".toList = [] := by
  decide

/-- C7: when a configured path is missing, `main` prints a `File not found`
report for it and still produces exactly one report for every configured
file plus the final summary line (it continues past the missing file and
completes normally); a file whose processing raises an I/O error is caught
inside `process_file` and reported per file, without being written. -/
theorem C7_missing_file_reported_run_completes
    (fs : String → FileAccess) (p : String)
    (hp : p ∈ files_to_clean) (hm : fs p = FileAccess.missing) :
    Report.notFound p ∈ mainRun fs ∧
      (mainRun fs).length = files_to_clean.length + 1 ∧
      (∀ q ∈ files_to_clean, (mainStep fs q).report ∈ mainRun fs) ∧
      (∀ q, fs q = FileAccess.readFailure →
        (mainStep fs q).report = Report.errorProcessing q ∧
          (mainStep fs q).written = none) := by
  refine ⟨?_, ?_, ?_, ?_⟩
  · have hstep : (mainStep fs p).report = Report.notFound p := by
      simp [mainStep, hm]
    unfold mainRun
    apply List.mem_append_left
    rw [← hstep]
    exact List.mem_map_of_mem _ hp
  · unfold mainRun
    simp
  · intro q hq
    unfold mainRun
    apply List.mem_append_left
    exact List.mem_map_of_mem _ hq
  · intro q hq
    constructor <;> simp [mainStep, hq, process_file]

/-- C7 (witness): the theorem applied to a filesystem in which exactly the
configured path `src/lib/dataPreviewUtils.ts` is missing. -/
theorem C7_witness :
    Report.notFound "src/lib/dataPreviewUtils.ts" ∈
      mainRun (fun q => if q = "src/lib/dataPreviewUtils.ts" then FileAccess.missing
        else FileAccess.ok []) :=
  (C7_missing_file_reported_run_completes _ "src/lib/dataPreviewUtils.ts"
    (by decide) (by simp)).1

/-- C8: `process_file` writes the file back exactly when the cleaned content
differs from the original; when they are equal the file is left untouched
and reported as having no `console.log` statements, and when they differ the
written content is the cleaned content. -/
theorem C8_write_iff_changed (path : String) (content : List Char) :
    ((process_file path (FileAccess.ok content)).written ≠ none ↔
      remove_console_logs content ≠ content) ∧
    (remove_console_logs content = content →
      (process_file path (FileAccess.ok content)).report = Report.noLogs path ∧
        (process_file path (FileAccess.ok content)).written = none) ∧
    (remove_console_logs content ≠ content →
      (process_file path (FileAccess.ok content)).written =
        some (remove_console_logs content)) := by
  by_cases h : remove_console_logs content = content
  · simp [process_file, h]
  · simp [process_file, h]

/-- C8 (witness): the theorem applied at the unchanged one-character content
`x`. -/
theorem C8_witness :
    (process_file "a.ts" (FileAccess.ok "x".toList)).report = Report.noLogs "a.ts" ∧
      (process_file "a.ts" (FileAccess.ok "x".toList)).written = none :=
  (C8_write_iff_changed "a.ts" "x".toList).2.1 (by decide)

/-- C9: for every input, no line of the output of `remove_console_logs`
contains the substring `function`: the orphan-line filter drops every line
containing `function` anywhere, because the garbled brace conjunction leaves
the test of the substring `function` as the only live part of the first
filter condition. -/
theorem C9_no_function_line_in_output (s : List Char) :
    ((splitNl (remove_console_logs s)).all
      (fun l => !(containsSub functionPat l))) = true := by
  rw [List.all_eq_true]
  intro l hl
  rcases hk : (splitNl (loopRun s)).filter keepLine with _ | ⟨a, as⟩
  · have hs : remove_console_logs s = [] := by
      unfold remove_console_logs
      rw [hk]
      rfl
    rw [hs] at hl
    have : l = [] := by simpa [splitNl] using hl
    subst this
    decide
  · have hs : remove_console_logs s = joinNl (a :: as) := by
      unfold remove_console_logs
      rw [hk]
    have hnl : ∀ x ∈ a :: as, '\n' ∉ x := by
      intro x hx
      have hx2 : x ∈ (splitNl (loopRun s)).filter keepLine := by rw [hk]; exact hx
      exact splitNl_no_nl _ x (List.mem_of_mem_filter hx2)
    rw [hs, splitNl_joinNl _ (by simp) hnl] at hl
    have hx2 : l ∈ (splitNl (loopRun s)).filter keepLine := by rw [hk]; exact hl
    have hkeep : keepLine l = true := List.of_mem_filter hx2
    rw [keepLine_no_function hkeep]
    rfl

/-- C10: `remove_console_logs` never inserts text: the splice steps only
remove regions and the line filter only drops whole lines, so the output is
never longer than the input. -/
theorem C10_length_nonincreasing (s : List Char) :
    (remove_console_logs s).length ≤ s.length := by
  unfold remove_console_logs
  calc (joinNl ((splitNl (loopRun s)).filter keepLine)).length
      ≤ (joinNl (splitNl (loopRun s))).length := joinNl_filter_length keepLine _
    _ = (loopRun s).length := by rw [joinNl_splitNl]
    _ ≤ s.length := loopRun_length s
